import Mathlib

/-!
Verification of the batch task orchestrator (`compose/batch/batch`):
a shallow embedding of `node.go` (the `invoke` pipeline), `store.go`
(the per-index checkpoint bridge) and `types.go` (`NodeInterruptState`),
together with theorems about ordering, error classification,
interrupt/resume state and the concurrency bound.
-/

namespace EinoBatch

/-- Model of a Go `any` value as stored in `NodeInterruptState`
(`OriginalInputs`, `CompletedResults`); a type assertion `v.(T)` is a
partial decoding function out of this type. -/
inductive GoAny where
  | nat (n : Nat)
  | str (s : String)
  | boolV (b : Bool)
deriving DecidableEq, Repr

/-- `NodeInterruptState` from `types.go`: the snapshot carried across the
suspend/resume boundary.  `CompletedResults` (a Go `map[int]any`) is
modelled as an association list with at most one entry per key. -/
structure NodeInterruptState where
  OriginalInputs : List GoAny
  CompletedResults : List (Nat × GoAny)
  InterruptedIndices : List Nat
  TotalCount : Nat
deriving DecidableEq, Repr

/-- Model of Go `error` values produced and consumed by the batch node.
`base` is an opaque error from the inner runnable, whose flag records
whether `compose.ExtractInterruptInfo` recognises it as an interrupt;
`taskFailed` is the wrapping added at collection time; `wrapped` is the
wrapping of the compile error; `composite` is `compose.CompositeInterrupt`
bundling the interrupt signals with the resume state. -/
inductive GoErr where
  | base (msg : String) (interrupt : Bool)
  | taskFailed (idx : Nat) (inner : GoErr)
  | wrapped (msg : String) (inner : GoErr)
  | composite (signals : List GoErr) (state : NodeInterruptState)

/-- Classification used at collection time: does
`compose.ExtractInterruptInfo` succeed on this error?  It unwraps
wrapping layers the way `errors.As` does. -/
def extractInterruptOk : GoErr → Bool
  | .base _ i => i
  | .taskFailed _ e => extractInterruptOk e
  | .wrapped _ e => extractInterruptOk e
  | .composite _ _ => true

def compileFailMsg : String := "failed to compile inner task"

def interruptMsg : String := "interrupt"

def ordinaryMsg : String := "task error"

/-- Embedding of a static Go type into the untyped `any` store:
`enc` is the upcast, `dec` the type assertion `v.(T)`.  A value stored at
type `T` always asserts back to itself. -/
structure TypeEmbed (α : Type) where
  enc : α → GoAny
  dec : GoAny → Option α
  dec_enc : ∀ a, dec (enc a) = some a

def natEmbed : TypeEmbed Nat where
  enc := GoAny.nat
  dec := fun g => match g with
    | .nat n => some n
    | _ => none
  dec_enc := fun _ => rfl

/-- The fixed data of one batch invocation of `Node[I, O].invoke`:
the compile outcome of the inner task, the behaviour of the compiled
runnable per (index, input), the `any`-embeddings of `I` and `O`, and
the Go zero values of `I` and `O`. -/
structure Model (I O : Type) where
  compileErr : Option GoErr
  runner : Nat → I → O × Option GoErr
  embI : TypeEmbed I
  embO : TypeEmbed O
  defaultI : I
  defaultO : O

/-- Go map assignment `m[k] = v` on an association-list model. -/
def mapInsert {κ α : Type} [DecidableEq κ] : List (κ × α) → κ → α → List (κ × α)
  | [], k, v => [(k, v)]
  | (k', v') :: rest, k, v =>
      if k' = k then (k, v) :: rest else (k', v') :: mapInsert rest k v

/-- Go map read `m[k]` on an association-list model. -/
def mapLookup {κ α : Type} [DecidableEq κ] : List (κ × α) → κ → Option α
  | [], _ => none
  | (k', v') :: rest, k => if k' = k then some v' else mapLookup rest k

/-- One iteration of the input-restoration loop: write the entry into
its slot when the type assertion to `I` succeeds, skip it otherwise. -/
def restoreInStep {I : Type} (dec : GoAny → Option I) (acc : List I) (p : Nat × GoAny) : List I :=
  match dec p.2 with
  | some v => acc.set p.1 v
  | none => acc

/-- RESUME PATH input restoration (`node.go` lines 124-129): allocate
`TotalCount` zero values and overwrite position `i` for every
`OriginalInputs` entry whose type assertion to `I` succeeds; entries
that fail to convert are skipped. -/
def restoreInputs {I : Type} (dec : GoAny → Option I) (dflt : I)
    (origs : List GoAny) (total : Nat) : List I :=
  origs.enum.foldl (restoreInStep dec) (List.replicate total dflt)

/-- One iteration of the completed-result restoration loop: an entry is
applied only when its index is inside the output slice and its type
assertion to `O` succeeds. -/
def restoreCompletedStep {O : Type} (dec : GoAny → Option O) (acc : List O)
    (p : Nat × GoAny) : List O :=
  if p.1 < acc.length then
    match dec p.2 with
    | some v => acc.set p.1 v
    | none => acc
  else acc

/-- Restoration of completed results (`node.go` lines 144-152): each
`CompletedResults` entry in range whose type assertion to `O` succeeds
is written into the output slot; all other entries are skipped. -/
def restoreCompleted {O : Type} (dec : GoAny → Option O)
    (entries : List (Nat × GoAny)) (outputs : List O) : List O :=
  entries.foldl (restoreCompletedStep dec) outputs

/-- Which indices are dispatched (`node.go` lines 116-138): on resume,
exactly the previous `InterruptedIndices`; on a first run, `0..N-1`. -/
def computeIndicesToProcess {I : Type} (wasInterrupted hasState : Bool)
    (prevState : Option NodeInterruptState) (inputs : List I) : List Nat :=
  match wasInterrupted, hasState, prevState with
  | true, true, some prev => prev.InterruptedIndices
  | _, _, _ => List.range inputs.length

/-- The effective input sequence (`node.go` lines 116-138): restored from
the interrupt state on resume, the caller-supplied inputs otherwise. -/
def computeEffectiveInputs {I O : Type} (m : Model I O) (wasInterrupted hasState : Bool)
    (prevState : Option NodeInterruptState) (inputs : List I) : List I :=
  match wasInterrupted, hasState, prevState with
  | true, true, some prev =>
      restoreInputs m.embI.dec m.defaultI prev.OriginalInputs prev.TotalCount
  | _, _, _ => inputs

/-- The output slice right after allocation and (on resume) restoration
(`node.go` lines 141-152). -/
def initialOutputs {I O : Type} (m : Model I O) (wasInterrupted hasState : Bool)
    (prevState : Option NodeInterruptState) (effLen : Nat) : List O :=
  let outs := List.replicate effLen m.defaultO
  match wasInterrupted, hasState, prevState with
  | true, true, some prev => restoreCompleted m.embO.dec prev.CompletedResults outs
  | _, _, _ => outs

/-- The multiset of `taskResult` values sent on the result channel, in
arrival order: one invocation of the compiled runnable per dispatched
index (`node.go` lines 180-194). -/
def runResults {I O : Type} (m : Model I O) (eff : List I) (arrival : List Nat) :
    List (Nat × O × Option GoErr) :=
  arrival.map (fun idx => (idx, m.runner idx (eff.getD idx m.defaultI)))

/-- Collector state of the result loop (`node.go` lines 230-233). -/
structure CollectAcc (O : Type) where
  normalErr : Option GoErr
  interruptErrs : List GoErr
  interruptedIndices : List Nat
  completedResults : List (Nat × GoAny)
  outputs : List O

/-- One iteration of the result-collection loop (`node.go` lines 235-250):
interrupt errors are accumulated with their indices, the first ordinary
error is kept wrapped with its index, successes are written to the output
slot and recorded in `completedResults`. -/
def collectStep {O : Type} (enc : O → GoAny) (acc : CollectAcc O)
    (r : Nat × O × Option GoErr) : CollectAcc O :=
  match r.2.2 with
  | some e =>
      if extractInterruptOk e then
        { acc with
            interruptErrs := acc.interruptErrs ++ [e],
            interruptedIndices := acc.interruptedIndices ++ [r.1] }
      else
        match acc.normalErr with
        | none => { acc with normalErr := some (GoErr.taskFailed r.1 e) }
        | some _ => acc
  | none =>
      { acc with
          outputs := acc.outputs.set r.1 r.2.1,
          completedResults := mapInsert acc.completedResults r.1 (enc r.2.1) }

/-- The internal `invoke` of `Node[I, O]` (`node.go` lines 108-275),
parametrised by the arrival order of the per-index results on the result
channel (`arrival`, a permutation of the dispatched indices). -/
def invoke {I O : Type} (m : Model I O) (wasInterrupted hasState : Bool)
    (prevState : Option NodeInterruptState) (inputs : List I)
    (arrival : List Nat) : Except GoErr (List O) :=
  let indicesToProcess := computeIndicesToProcess wasInterrupted hasState prevState inputs
  let effectiveInputs := computeEffectiveInputs m wasInterrupted hasState prevState inputs
  let outputs0 := initialOutputs m wasInterrupted hasState prevState effectiveInputs.length
  match m.compileErr with
  | some e => .error (GoErr.wrapped compileFailMsg e)
  | none =>
    if indicesToProcess.isEmpty then .ok outputs0
    else
      let results := runResults m effectiveInputs arrival
      let acc := results.foldl (collectStep m.embO.enc)
        { normalErr := none, interruptErrs := [], interruptedIndices := [],
          completedResults := [], outputs := outputs0 }
      match acc.normalErr with
      | some e => .error e
      | none =>
        if acc.interruptErrs.isEmpty then .ok acc.outputs
        else
          .error (GoErr.composite acc.interruptErrs
            { OriginalInputs := effectiveInputs.map m.embI.enc,
              CompletedResults := acc.completedResults,
              InterruptedIndices := acc.interruptedIndices,
              TotalCount := effectiveInputs.length })

/-- The first ordinary (non-interrupt) failure in arrival order, with its
index, as the spec's failure policy describes it. -/
def specFirstOrdinaryFailure {O : Type} : List (Nat × O × Option GoErr) → Option (Nat × GoErr)
  | [] => none
  | r :: rs =>
      match r.2.2 with
      | some e =>
          if extractInterruptOk e then specFirstOrdinaryFailure rs else some (r.1, e)
      | none => specFirstOrdinaryFailure rs

/-! The per-index checkpoint bridge (`store.go`): checkpoint IDs of the
form `batch_<index>`, their parser, and the keyed byte store. -/

/-- Checkpoint payloads (`[]byte`), modelled as lists of byte values. -/
abbrev GoBytes := List Nat

def atoiSyntaxMsg : String := "strconv.Atoi: parsing: invalid syntax"

def invalidBatchIDMsg : String := "invalid batch checkpoint ID: "

/-- A decimal digit character, `'0' + d`. -/
def digChar (d : Nat) : Char := Char.ofNat (48 + d)

/-- The numeric value of a decimal digit character, if it is one. -/
def digVal (c : Char) : Option Nat :=
  if 48 ≤ c.toNat ∧ c.toNat ≤ 57 then some (c.toNat - 48) else none

/-- Left-to-right accumulation of a decimal numeral, as `strconv.Atoi`
does over the digit part of its argument. -/
def atoiDigits : List Char → Nat → Option Nat
  | [], acc => some acc
  | c :: cs, acc =>
      match digVal c with
      | some d => atoiDigits cs (10 * acc + d)
      | none => none

/-- Digit part of `strconv.Atoi`: an empty digit string is a syntax
error. -/
def atoiDigitsNE (cs : List Char) : Option Nat :=
  match cs with
  | [] => none
  | _ => atoiDigits cs 0

/-- Decimal rendering of a natural number, most significant digit first,
prepended to `acc`; the first argument is fuel (any bound above the
number itself suffices, each step divides the number by ten). -/
def natToCharsAux : Nat → Nat → List Char → List Char
  | 0, _, acc => acc
  | fuel + 1, n, acc =>
      if n = 0 then acc else natToCharsAux fuel (n / 10) (digChar (n % 10) :: acc)

/-- The decimal numeral of `n`, as `fmt.Sprintf` with verb `%d` renders
a non-negative value. -/
def natItoaChars (n : Nat) : List Char :=
  if n = 0 then [Char.ofNat 48] else natToCharsAux n n []

/-- Model of `strconv.Atoi`: optional sign, then a non-empty run of
decimal digits; anything else is a syntax error. -/
def goAtoi (cs : List Char) : Except GoErr Int :=
  match cs with
  | [] => .error (GoErr.base atoiSyntaxMsg false)
  | c :: rest =>
      if c = Char.ofNat 45 then
        match atoiDigitsNE rest with
        | some n => .ok (-(n : Int))
        | none => .error (GoErr.base atoiSyntaxMsg false)
      else if c = Char.ofNat 43 then
        match atoiDigitsNE rest with
        | some n => .ok ((n : Int))
        | none => .error (GoErr.base atoiSyntaxMsg false)
      else
        match atoiDigitsNE (c :: rest) with
        | some n => .ok ((n : Int))
        | none => .error (GoErr.base atoiSyntaxMsg false)

/-- The characters of the literal `batch_`. -/
def batchIDChars : List Char :=
  [Char.ofNat 98, Char.ofNat 97, Char.ofNat 116, Char.ofNat 99, Char.ofNat 104, Char.ofNat 95]

/-- `makeBatchCheckpointID` (`store.go` lines 48-50): the string
`batch_<index>` for a non-negative index. -/
def makeBatchCheckpointID (i : Nat) : String :=
  String.mk (batchIDChars ++ natItoaChars i)

/-- `parseBatchIndex` (`store.go` lines 54-60): require the `batch_`
marker at the front, strip it, and parse the remainder with
`strconv.Atoi`. -/
def parseBatchIndex (s : String) : Except GoErr Int :=
  if batchIDChars.isPrefixOf s.data then goAtoi (s.data.drop 6)
  else .error (GoErr.base (invalidBatchIDMsg ++ s) false)

/-- `batchBridgeStore.Get` (`store.go` lines 64-75): parse the ID, then
read the keyed map, reporting presence alongside the bytes. -/
def storeGet (data : List (Int × GoBytes)) (checkPointID : String) :
    Except GoErr (Option GoBytes × Bool) :=
  match parseBatchIndex checkPointID with
  | .error e => .error e
  | .ok index => .ok (mapLookup data index, (mapLookup data index).isSome)

/-- `batchBridgeStore.Set` (`store.go` lines 79-90): parse the ID, then
overwrite the entry for that index. -/
def storeSet (data : List (Int × GoBytes)) (checkPointID : String) (checkPoint : GoBytes) :
    Except GoErr (List (Int × GoBytes)) :=
  match parseBatchIndex checkPointID with
  | .error e => .error e
  | .ok index => .ok (mapInsert data index checkPoint)

/-- `newBatchBridgeStore` (`store.go` lines 40-44): the empty store. -/
def newBatchBridgeStoreData : List (Int × GoBytes) := []

/-! Dispatch machines for the concurrency contract (`node.go` lines
196-227).  With a positive bound the first item runs synchronously on
the dispatching goroutine — which blocks the loop, so nothing else is
spawned while it runs — and every later item is a goroutine that must
acquire one of `B` semaphore slots before invoking the task and releases
it afterwards.  With bound zero the loop itself runs the items one at a
time. -/

/-- State of the concurrent dispatch (`maxConcurrency > 0`). -/
structure ConcState where
  firstRunning : Bool
  toSpawn : Nat
  waitingSem : Nat
  runningSem : Nat
  finished : Nat
deriving DecidableEq, Repr

/-- Initial concurrent state: the first item executing synchronously,
`rest` later items not yet spawned. -/
def concInit (rest : Nat) : ConcState :=
  { firstRunning := true, toSpawn := rest, waitingSem := 0, runningSem := 0, finished := 0 }

/-- Number of simultaneously executing task invocations. -/
def liveConc (s : ConcState) : Nat :=
  s.runningSem + (if s.firstRunning then 1 else 0)

/-- Steps of the concurrent dispatch with semaphore capacity `B`:
the loop resumes spawning only after the synchronous first item returns,
and a goroutine starts the task only while fewer than `B` semaphore slots
are held. -/
inductive ConcStep (B : Nat) : ConcState → ConcState → Prop where
  | finishFirst (s : ConcState) (h : s.firstRunning = true) :
      ConcStep B s { s with firstRunning := false, finished := s.finished + 1 }
  | spawn (s : ConcState) (h1 : s.firstRunning = false) (h2 : 0 < s.toSpawn) :
      ConcStep B s { s with toSpawn := s.toSpawn - 1, waitingSem := s.waitingSem + 1 }
  | acquire (s : ConcState) (h1 : 0 < s.waitingSem) (h2 : s.runningSem < B) :
      ConcStep B s { s with waitingSem := s.waitingSem - 1, runningSem := s.runningSem + 1 }
  | finishTask (s : ConcState) (h : 0 < s.runningSem) :
      ConcStep B s { s with runningSem := s.runningSem - 1, finished := s.finished + 1 }

/-- Reachability in the concurrent dispatch. -/
inductive ReachConc (B : Nat) (s0 : ConcState) : ConcState → Prop where
  | refl : ReachConc B s0 s0
  | tail {s t : ConcState} (hr : ReachConc B s0 s) (hs : ConcStep B s t) : ReachConc B s0 t

/-- State of the sequential dispatch (`maxConcurrency == 0`): the loop
body finishes each item before starting the next. -/
structure SeqState where
  pending : List Nat
  current : Option Nat
  doneList : List Nat
deriving DecidableEq, Repr

/-- Initial sequential state over the dispatched index list. -/
def seqInit (l : List Nat) : SeqState :=
  { pending := l, current := none, doneList := [] }

/-- Number of simultaneously executing task invocations in the
sequential dispatch. -/
def liveSeq (s : SeqState) : Nat :=
  if s.current.isSome then 1 else 0

/-- Steps of the sequential loop: start the next pending item only when
none is running; record the running item as done when it returns. -/
inductive SeqStep : SeqState → SeqState → Prop where
  | start (s : SeqState) (idx : Nat) (rest : List Nat)
      (hc : s.current = none) (hp : s.pending = idx :: rest) :
      SeqStep s { pending := rest, current := some idx, doneList := s.doneList }
  | finish (s : SeqState) (idx : Nat) (hc : s.current = some idx) :
      SeqStep s { pending := s.pending, current := none, doneList := s.doneList ++ [idx] }

/-- Reachability in the sequential dispatch. -/
inductive ReachSeq (s0 : SeqState) : SeqState → Prop where
  | refl : ReachSeq s0 s0
  | tail {s t : SeqState} (hr : ReachSeq s0 s) (hs : SeqStep s t) : ReachSeq s0 t

/-! Association-list map lemmas. -/

theorem mapLookup_insert {κ α : Type} [DecidableEq κ] (m : List (κ × α)) (k q : κ) (v : α) :
    mapLookup (mapInsert m k v) q = if k = q then some v else mapLookup m q := by
  induction m with
  | nil =>
    simp only [mapInsert, mapLookup]
  | cons p rest ih =>
    by_cases h0 : p.1 = k
    · simp only [mapInsert, h0, if_pos rfl, mapLookup]
      by_cases hq : k = q
      · simp [hq]
      · simp [hq, mapLookup, h0]
    · simp only [mapInsert, if_neg h0, mapLookup, ih]
      by_cases hq : p.1 = q
      · have : ¬ k = q := fun he => h0 (by rw [hq, he])
        simp [hq, this]
      · simp [hq]

theorem mapLookup_mem {κ α : Type} [DecidableEq κ] (m : List (κ × α)) (k : κ) (v : α)
    (h : mapLookup m k = some v) : (k, v) ∈ m := by
  induction m with
  | nil => simp [mapLookup] at h
  | cons p rest ih =>
    by_cases h0 : p.1 = k
    · simp only [mapLookup, if_pos h0] at h
      have hv : p.2 = v := Option.some.inj h
      have hp : (k, v) = p := by
        rw [← h0, ← hv]
      rw [hp]
      exact List.mem_cons_self _ _
    · simp only [mapLookup, if_neg h0] at h
      exact List.mem_cons_of_mem _ (ih h)

theorem mem_keys_mapInsert {κ α : Type} [DecidableEq κ] (m : List (κ × α)) (k q : κ) (v : α)
    (h : q ∈ (mapInsert m k v).map Prod.fst) : q = k ∨ q ∈ m.map Prod.fst := by
  induction m with
  | nil => simpa [mapInsert] using h
  | cons p rest ih =>
    by_cases h0 : p.1 = k
    · simp only [mapInsert, if_pos h0, List.map_cons, List.mem_cons] at h
      rcases h with h | h
      · exact Or.inl h
      · exact Or.inr (by simp [h])
    · simp only [mapInsert, if_neg h0, List.map_cons, List.mem_cons] at h
      rcases h with h | h
      · exact Or.inr (by simp [h])
      · rcases ih h with h | h
        · exact Or.inl h
        · exact Or.inr (by simp [h])

theorem mapInsert_keys_nodup {κ α : Type} [DecidableEq κ] (m : List (κ × α)) (k : κ) (v : α)
    (h : (m.map Prod.fst).Nodup) : ((mapInsert m k v).map Prod.fst).Nodup := by
  induction m with
  | nil => simp [mapInsert]
  | cons p rest ih =>
    simp only [List.map_cons, List.nodup_cons] at h
    by_cases h0 : p.1 = k
    · simp only [mapInsert, if_pos h0, List.map_cons, List.nodup_cons]
      exact ⟨by rw [← h0]; exact h.1, h.2⟩
    · simp only [mapInsert, if_neg h0, List.map_cons, List.nodup_cons]
      refine ⟨fun hmem => ?_, ih h.2⟩
      rcases mem_keys_mapInsert rest k p.1 v hmem with he | he
      · exact h0 he
      · exact h.1 he

/-! Lemmas about repeated `List.set` folds (the success writes of the
collection loop). -/

theorem foldlSet_length {O : Type} (rs : List (Nat × O × Option GoErr)) (init : List O) :
    (rs.foldl (fun os r => os.set r.1 r.2.1) init).length = init.length := by
  induction rs generalizing init with
  | nil => rfl
  | cons p rest ih => simp [List.foldl_cons, ih]

theorem foldlSet_getElem?_not_mem {O : Type} (rs : List (Nat × O × Option GoErr))
    (init : List O) (k : Nat) (h : k ∉ rs.map Prod.fst) :
    (rs.foldl (fun os r => os.set r.1 r.2.1) init)[k]? = init[k]? := by
  induction rs generalizing init with
  | nil => rfl
  | cons p rest ih =>
    have hk : p.1 ≠ k := fun he => h (by simp [he])
    have h2 : k ∉ rest.map Prod.fst := fun hm => h (by simp [hm])
    simp only [List.foldl_cons]
    rw [ih _ h2, List.getElem?_set_ne hk]

theorem foldlSet_getElem?_mem {O : Type} (rs : List (Nat × O × Option GoErr))
    (init : List O) (r : Nat × O × Option GoErr) (hr : r ∈ rs)
    (hnd : (rs.map Prod.fst).Nodup) (hk : r.1 < init.length) :
    (rs.foldl (fun os x => os.set x.1 x.2.1) init)[r.1]? = some r.2.1 := by
  induction rs generalizing init with
  | nil => cases hr
  | cons p rest ih =>
    simp only [List.map_cons, List.nodup_cons] at hnd
    simp only [List.foldl_cons]
    rcases List.mem_cons.mp hr with he | hm
    · subst he
      rw [foldlSet_getElem?_not_mem rest _ r.1 hnd.1]
      exact List.getElem?_set_self hk
    · exact ih _ hm hnd.2 (by simpa using hk)

/-! Shape lemmas for a single collection step, by outcome class. -/

theorem collectStep_success {O : Type} (enc : O → GoAny) (acc : CollectAcc O)
    (r : Nat × O × Option GoErr) (h : r.2.2 = none) :
    collectStep enc acc r =
      { acc with
          outputs := acc.outputs.set r.1 r.2.1,
          completedResults := mapInsert acc.completedResults r.1 (enc r.2.1) } := by
  unfold collectStep
  rw [h]

theorem collectStep_interrupt {O : Type} (enc : O → GoAny) (acc : CollectAcc O)
    (r : Nat × O × Option GoErr) (e : GoErr) (h : r.2.2 = some e)
    (hi : extractInterruptOk e = true) :
    collectStep enc acc r =
      { acc with
          interruptErrs := acc.interruptErrs ++ [e],
          interruptedIndices := acc.interruptedIndices ++ [r.1] } := by
  unfold collectStep
  rw [h]
  simp [hi]

theorem collectStep_ordinary_first {O : Type} (enc : O → GoAny) (acc : CollectAcc O)
    (r : Nat × O × Option GoErr) (e : GoErr) (h : r.2.2 = some e)
    (hi : extractInterruptOk e = false) (hn : acc.normalErr = none) :
    collectStep enc acc r = { acc with normalErr := some (GoErr.taskFailed r.1 e) } := by
  unfold collectStep
  rw [h]
  simp [hi, hn]

theorem collectStep_ordinary_later {O : Type} (enc : O → GoAny) (acc : CollectAcc O)
    (r : Nat × O × Option GoErr) (e : GoErr) (x : GoErr) (h : r.2.2 = some e)
    (hi : extractInterruptOk e = false) (hn : acc.normalErr = some x) :
    collectStep enc acc r = acc := by
  unfold collectStep
  rw [h]
  simp [hi, hn]

/-! Fold lemmas for the collection loop. -/

theorem collect_all_success {O : Type} (enc : O → GoAny) (rs : List (Nat × O × Option GoErr))
    (acc : CollectAcc O) (hsucc : ∀ r ∈ rs, r.2.2 = none) :
    rs.foldl (collectStep enc) acc =
      { acc with
          outputs := rs.foldl (fun os r => os.set r.1 r.2.1) acc.outputs,
          completedResults :=
            rs.foldl (fun mp r => mapInsert mp r.1 (enc r.2.1)) acc.completedResults } := by
  induction rs generalizing acc with
  | nil => rfl
  | cons p rest ih =>
    simp only [List.foldl_cons]
    rw [collectStep_success enc acc p (hsucc p (List.mem_cons_self _ _)),
      ih _ (fun r hr => hsucc r (List.mem_cons_of_mem _ hr))]

theorem collect_normalErr_some {O : Type} (enc : O → GoAny) (rs : List (Nat × O × Option GoErr))
    (acc : CollectAcc O) (x : GoErr) (h : acc.normalErr = some x) :
    (rs.foldl (collectStep enc) acc).normalErr = some x := by
  induction rs generalizing acc with
  | nil => exact h
  | cons p rest ih =>
    simp only [List.foldl_cons]
    apply ih
    cases hp : p.2.2 with
    | none => rw [collectStep_success enc acc p hp]; exact h
    | some e =>
      cases hi : extractInterruptOk e with
      | true => rw [collectStep_interrupt enc acc p e hp hi]; exact h
      | false => rw [collectStep_ordinary_later enc acc p e x hp hi h]; exact h

theorem collect_normalErr_eq {O : Type} (enc : O → GoAny) (rs : List (Nat × O × Option GoErr))
    (acc : CollectAcc O) (h : acc.normalErr = none) :
    (rs.foldl (collectStep enc) acc).normalErr =
      (specFirstOrdinaryFailure rs).map (fun p => GoErr.taskFailed p.1 p.2) := by
  induction rs generalizing acc with
  | nil => simpa [specFirstOrdinaryFailure] using h
  | cons p rest ih =>
    simp only [List.foldl_cons]
    cases hp : p.2.2 with
    | none =>
      have hstep : (collectStep enc acc p).normalErr = none := by
        rw [collectStep_success enc acc p hp]; exact h
      rw [ih _ hstep]
      simp [specFirstOrdinaryFailure, hp]
    | some e =>
      cases hi : extractInterruptOk e with
      | true =>
        have hstep : (collectStep enc acc p).normalErr = none := by
          rw [collectStep_interrupt enc acc p e hp hi]; exact h
        rw [ih _ hstep]
        simp [specFirstOrdinaryFailure, hp, hi]
      | false =>
        have hstep : (collectStep enc acc p).normalErr = some (GoErr.taskFailed p.1 e) := by
          rw [collectStep_ordinary_first enc acc p e hp hi h]
        rw [collect_normalErr_some enc rest _ (GoErr.taskFailed p.1 e) hstep]
        simp [specFirstOrdinaryFailure, hp, hi]

theorem collect_outputs_length {O : Type} (enc : O → GoAny) (rs : List (Nat × O × Option GoErr))
    (acc : CollectAcc O) :
    (rs.foldl (collectStep enc) acc).outputs.length = acc.outputs.length := by
  induction rs generalizing acc with
  | nil => rfl
  | cons p rest ih =>
    simp only [List.foldl_cons]
    rw [ih]
    cases hp : p.2.2 with
    | none => rw [collectStep_success enc acc p hp]; simp
    | some e =>
      cases hi : extractInterruptOk e with
      | true => rw [collectStep_interrupt enc acc p e hp hi]
      | false =>
        cases hn : acc.normalErr with
        | none => rw [collectStep_ordinary_first enc acc p e hp hi hn]
        | some x => rw [collectStep_ordinary_later enc acc p e x hp hi hn]

theorem collect_interrupted_mem {O : Type} (enc : O → GoAny) (rs : List (Nat × O × Option GoErr))
    (acc : CollectAcc O) (k : Nat)
    (h : k ∈ (rs.foldl (collectStep enc) acc).interruptedIndices) :
    k ∈ acc.interruptedIndices ∨
      ∃ r ∈ rs, r.1 = k ∧ ∃ e, r.2.2 = some e ∧ extractInterruptOk e = true := by
  induction rs generalizing acc with
  | nil => exact Or.inl h
  | cons p rest ih =>
    simp only [List.foldl_cons] at h
    cases hp : p.2.2 with
    | none =>
      rw [collectStep_success enc acc p hp] at h
      rcases ih _ h with hm | hm
      · exact Or.inl hm
      · rcases hm with ⟨r, hr, hrest⟩
        exact Or.inr ⟨r, List.mem_cons_of_mem _ hr, hrest⟩
    | some e =>
      cases hi : extractInterruptOk e with
      | true =>
        rw [collectStep_interrupt enc acc p e hp hi] at h
        rcases ih _ h with hm | hm
        · rcases List.mem_append.mp hm with hm | hm
          · exact Or.inl hm
          · have hk : p.1 = k := by
              have : k = p.1 := by simpa using hm
              exact this.symm
            exact Or.inr ⟨p, List.mem_cons_self _ _, hk, e, hp, hi⟩
        · rcases hm with ⟨r, hr, hrest⟩
          exact Or.inr ⟨r, List.mem_cons_of_mem _ hr, hrest⟩
      | false =>
        cases hn : acc.normalErr with
        | none =>
          rw [collectStep_ordinary_first enc acc p e hp hi hn] at h
          rcases ih _ h with hm | hm
          · exact Or.inl hm
          · rcases hm with ⟨r, hr, hrest⟩
            exact Or.inr ⟨r, List.mem_cons_of_mem _ hr, hrest⟩
        | some x =>
          rw [collectStep_ordinary_later enc acc p e x hp hi hn] at h
          rcases ih _ h with hm | hm
          · exact Or.inl hm
          · rcases hm with ⟨r, hr, hrest⟩
            exact Or.inr ⟨r, List.mem_cons_of_mem _ hr, hrest⟩

theorem collect_completed_lookup {O : Type} (enc : O → GoAny) (rs : List (Nat × O × Option GoErr))
    (acc : CollectAcc O) (k : Nat) (v : GoAny)
    (h : mapLookup (rs.foldl (collectStep enc) acc).completedResults k = some v) :
    mapLookup acc.completedResults k = some v ∨
      ∃ r ∈ rs, r.1 = k ∧ r.2.2 = none ∧ v = enc r.2.1 := by
  induction rs generalizing acc with
  | nil => exact Or.inl h
  | cons p rest ih =>
    simp only [List.foldl_cons] at h
    cases hp : p.2.2 with
    | none =>
      rw [collectStep_success enc acc p hp] at h
      rcases ih _ h with hm | hm
      · rw [mapLookup_insert] at hm
        by_cases he : p.1 = k
        · rw [if_pos he] at hm
          exact Or.inr ⟨p, List.mem_cons_self _ _, he, hp, (Option.some.inj hm).symm⟩
        · rw [if_neg he] at hm
          exact Or.inl hm
      · rcases hm with ⟨r, hr, hrest⟩
        exact Or.inr ⟨r, List.mem_cons_of_mem _ hr, hrest⟩
    | some e =>
      cases hi : extractInterruptOk e with
      | true =>
        rw [collectStep_interrupt enc acc p e hp hi] at h
        rcases ih _ h with hm | ⟨r, hr, hrest⟩
        · exact Or.inl hm
        · exact Or.inr ⟨r, List.mem_cons_of_mem _ hr, hrest⟩
      | false =>
        cases hn : acc.normalErr with
        | none =>
          rw [collectStep_ordinary_first enc acc p e hp hi hn] at h
          rcases ih _ h with hm | ⟨r, hr, hrest⟩
          · exact Or.inl hm
          · exact Or.inr ⟨r, List.mem_cons_of_mem _ hr, hrest⟩
        | some x =>
          rw [collectStep_ordinary_later enc acc p e x hp hi hn] at h
          rcases ih _ h with hm | ⟨r, hr, hrest⟩
          · exact Or.inl hm
          · exact Or.inr ⟨r, List.mem_cons_of_mem _ hr, hrest⟩

theorem collect_completed_keys_nodup {O : Type} (enc : O → GoAny)
    (rs : List (Nat × O × Option GoErr)) (acc : CollectAcc O)
    (h : (acc.completedResults.map Prod.fst).Nodup) :
    ((rs.foldl (collectStep enc) acc).completedResults.map Prod.fst).Nodup := by
  induction rs generalizing acc with
  | nil => exact h
  | cons p rest ih =>
    simp only [List.foldl_cons]
    apply ih
    cases hp : p.2.2 with
    | none =>
      rw [collectStep_success enc acc p hp]
      exact mapInsert_keys_nodup _ _ _ h
    | some e =>
      cases hi : extractInterruptOk e with
      | true => rw [collectStep_interrupt enc acc p e hp hi]; exact h
      | false =>
        cases hn : acc.normalErr with
        | none => rw [collectStep_ordinary_first enc acc p e hp hi hn]; exact h
        | some x => rw [collectStep_ordinary_later enc acc p e x hp hi hn]; exact h

theorem collect_normalErr_shape {O : Type} (enc : O → GoAny)
    (rs : List (Nat × O × Option GoErr)) (acc : CollectAcc O) (hn : acc.normalErr = none) :
    (rs.foldl (collectStep enc) acc).normalErr = none ∨
      ∃ i e, (rs.foldl (collectStep enc) acc).normalErr = some (GoErr.taskFailed i e) := by
  rw [collect_normalErr_eq enc rs acc hn]
  cases hs : specFirstOrdinaryFailure rs with
  | none => exact Or.inl rfl
  | some p => exact Or.inr ⟨p.1, p.2, rfl⟩

theorem specFirstOrdinaryFailure_of_success {O : Type} (rs : List (Nat × O × Option GoErr))
    (hsucc : ∀ r ∈ rs, r.2.2 = none) : specFirstOrdinaryFailure rs = none := by
  induction rs with
  | nil => rfl
  | cons p rest ih =>
    have hp := hsucc p (List.mem_cons_self _ _)
    simp only [specFirstOrdinaryFailure, hp]
    exact ih (fun r hr => hsucc r (List.mem_cons_of_mem _ hr))

/-! Lemmas about the two restoration folds of the resume path. -/

theorem restoreInStep_length {I : Type} (dec : GoAny → Option I) (acc : List I)
    (p : Nat × GoAny) : (restoreInStep dec acc p).length = acc.length := by
  unfold restoreInStep
  cases dec p.2 <;> simp

theorem restoreInFold_length {I : Type} (dec : GoAny → Option I)
    (entries : List (Nat × GoAny)) (init : List I) :
    (entries.foldl (restoreInStep dec) init).length = init.length := by
  induction entries generalizing init with
  | nil => rfl
  | cons p rest ih =>
    simp only [List.foldl_cons]
    rw [ih, restoreInStep_length]

theorem restoreInputs_length {I : Type} (dec : GoAny → Option I) (dflt : I)
    (origs : List GoAny) (total : Nat) :
    (restoreInputs dec dflt origs total).length = total := by
  unfold restoreInputs
  rw [restoreInFold_length]
  exact List.length_replicate _ _

theorem restoreInFold_getElem?_skip {I : Type} (dec : GoAny → Option I)
    (entries : List (Nat × GoAny)) (init : List I) (k : Nat)
    (h : ∀ p ∈ entries, p.1 = k → dec p.2 = none) :
    (entries.foldl (restoreInStep dec) init)[k]? = init[k]? := by
  induction entries generalizing init with
  | nil => rfl
  | cons p rest ih =>
    simp only [List.foldl_cons]
    rw [ih _ (fun q hq => h q (List.mem_cons_of_mem _ hq))]
    unfold restoreInStep
    cases hd : dec p.2 with
    | none => rfl
    | some v =>
      have hne : p.1 ≠ k := by
        intro he
        rw [h p (List.mem_cons_self _ _) he] at hd
        cases hd
      simp [List.getElem?_set_ne hne]

theorem restoreInputs_getElem?_mismatch {I : Type} (dec : GoAny → Option I) (dflt : I)
    (origs : List GoAny) (total : Nat) (k : Nat) (v : GoAny)
    (hget : origs[k]? = some v) (hdec : dec v = none) (hk : k < total) :
    (restoreInputs dec dflt origs total)[k]? = some dflt := by
  unfold restoreInputs
  rw [restoreInFold_getElem?_skip]
  · simp [hk]
  · intro p hp hpk
    have hgp : origs[p.1]? = some p.2 := List.mem_enum_iff_getElem?.mp hp
    rw [hpk, hget] at hgp
    have hv : p.2 = v := (Option.some.inj hgp).symm
    rw [hv]
    exact hdec

theorem restoreCompletedStep_length {O : Type} (dec : GoAny → Option O) (acc : List O)
    (p : Nat × GoAny) : (restoreCompletedStep dec acc p).length = acc.length := by
  unfold restoreCompletedStep
  split
  · cases dec p.2 <;> simp
  · rfl

theorem restoreCompleted_length {O : Type} (dec : GoAny → Option O)
    (entries : List (Nat × GoAny)) (outputs : List O) :
    (restoreCompleted dec entries outputs).length = outputs.length := by
  unfold restoreCompleted
  induction entries generalizing outputs with
  | nil => rfl
  | cons p rest ih =>
    simp only [List.foldl_cons]
    rw [ih, restoreCompletedStep_length]

theorem restoreCompleted_filter {O : Type} (dec : GoAny → Option O)
    (entries : List (Nat × GoAny)) (outputs : List O) :
    restoreCompleted dec entries outputs =
      restoreCompleted dec (entries.filter (fun p => p.1 < outputs.length)) outputs := by
  suffices hgen : ∀ (es : List (Nat × GoAny)) (L : Nat) (outs : List O), outs.length = L →
      restoreCompleted dec es outs =
        restoreCompleted dec (es.filter (fun p => p.1 < L)) outs by
    exact hgen entries outputs.length outputs rfl
  intro es L
  induction es with
  | nil => intro outs hL; rfl
  | cons p rest ih =>
    intro outs hL
    by_cases hp : p.1 < L
    · have hfil : (p :: rest).filter (fun q => decide (q.1 < L)) =
          p :: rest.filter (fun q => decide (q.1 < L)) := by
        simp [List.filter_cons, hp]
      unfold restoreCompleted at *
      rw [hfil]
      simp only [List.foldl_cons]
      exact ih _ (by rw [restoreCompletedStep_length, hL])
    · have hfil : (p :: rest).filter (fun q => decide (q.1 < L)) =
          rest.filter (fun q => decide (q.1 < L)) := by
        simp [List.filter_cons, hp]
      have hid : restoreCompletedStep dec outs p = outs := by
        unfold restoreCompletedStep
        rw [if_neg (by rw [hL]; exact hp)]
      unfold restoreCompleted at *
      rw [hfil]
      simp only [List.foldl_cons]
      rw [hid]
      exact ih _ hL

theorem restoreCompleted_getElem?_not_mem {O : Type} (dec : GoAny → Option O)
    (entries : List (Nat × GoAny)) (outs : List O) (k : Nat)
    (h : k ∉ entries.map Prod.fst) :
    (restoreCompleted dec entries outs)[k]? = outs[k]? := by
  unfold restoreCompleted
  induction entries generalizing outs with
  | nil => rfl
  | cons p rest ih =>
    have hk : p.1 ≠ k := fun he => h (by simp [he])
    have h2 : k ∉ rest.map Prod.fst := fun hm => h (by simp [hm])
    simp only [List.foldl_cons]
    rw [ih _ h2]
    unfold restoreCompletedStep
    split
    · cases dec p.2 with
      | none => rfl
      | some v => simp [List.getElem?_set_ne hk]
    · rfl

theorem restoreCompleted_getElem?_mem {O : Type} (dec : GoAny → Option O)
    (entries : List (Nat × GoAny)) (outs : List O) (k : Nat) (v : GoAny) (o : O)
    (hnd : (entries.map Prod.fst).Nodup) (hmem : (k, v) ∈ entries)
    (hdec : dec v = some o) (hk : k < outs.length) :
    (restoreCompleted dec entries outs)[k]? = some o := by
  induction entries generalizing outs with
  | nil => cases hmem
  | cons p rest ih =>
    simp only [List.map_cons, List.nodup_cons] at hnd
    unfold restoreCompleted
    simp only [List.foldl_cons]
    rcases List.mem_cons.mp hmem with he | hm
    · have hstep : restoreCompletedStep dec outs p = outs.set k o := by
        unfold restoreCompletedStep
        rw [← he]
        rw [if_pos hk, hdec]
      rw [hstep]
      have hnotk : k ∉ rest.map Prod.fst := by
        intro hmk
        have : p.1 = k := by rw [← he]
        rw [this] at hnd
        exact hnd.1 hmk
      rw [show List.foldl (restoreCompletedStep dec) (outs.set k o) rest =
          restoreCompleted dec rest (outs.set k o) from rfl]
      rw [restoreCompleted_getElem?_not_mem dec rest _ k hnotk]
      exact List.getElem?_set_self hk
    · rw [show List.foldl (restoreCompletedStep dec) (restoreCompletedStep dec outs p) rest =
          restoreCompleted dec rest (restoreCompletedStep dec outs p) from rfl]
      exact ih _ hnd.2 hm (by rw [restoreCompletedStep_length]; exact hk)

/-! Round trip between the decimal rendering of an index and the model
of `strconv.Atoi`. -/

theorem digVal_digChar (d : Nat) (h : d < 10) : digVal (digChar d) = some d := by
  have hall : ∀ x, x < 10 → digVal (digChar x) = some x := by decide
  exact hall d h

theorem digChar_ne_minus (d : Nat) (h : d < 10) : digChar d ≠ Char.ofNat 45 := by
  have hall : ∀ x, x < 10 → digChar x ≠ Char.ofNat 45 := by decide
  exact hall d h

theorem digChar_ne_plus (d : Nat) (h : d < 10) : digChar d ≠ Char.ofNat 43 := by
  have hall : ∀ x, x < 10 → digChar x ≠ Char.ofNat 43 := by decide
  exact hall d h

theorem atoiDigits_natToCharsAux (fuel : Nat) : ∀ (n : Nat) (acc : List Char), n ≤ fuel →
    atoiDigits (natToCharsAux fuel n acc) 0 = atoiDigits acc n := by
  induction fuel with
  | zero =>
    intro n acc h
    have hn : n = 0 := Nat.le_zero.mp h
    subst hn
    rfl
  | succ fuel ih =>
    intro n acc h
    by_cases hn : n = 0
    · subst hn
      simp [natToCharsAux]
    · have hstep : natToCharsAux (fuel + 1) n acc =
          natToCharsAux fuel (n / 10) (digChar (n % 10) :: acc) := by
        simp [natToCharsAux, hn]
      rw [hstep]
      have hdivle : n / 10 ≤ fuel := by
        have hlt : n / 10 < n := Nat.div_lt_self (Nat.pos_of_ne_zero hn) (by omega)
        omega
      rw [ih (n / 10) (digChar (n % 10) :: acc) hdivle]
      have hmod : n % 10 < 10 := Nat.mod_lt _ (by omega)
      simp only [atoiDigits, digVal_digChar (n % 10) hmod]
      rw [Nat.div_add_mod n 10]

theorem natToCharsAux_zero (fuel : Nat) (acc : List Char) :
    natToCharsAux fuel 0 acc = acc := by
  cases fuel with
  | zero => rfl
  | succ f => simp [natToCharsAux]

theorem natToCharsAux_head (fuel : Nat) : ∀ (n : Nat) (acc : List Char), 0 < n → n ≤ fuel →
    ∃ d rest, natToCharsAux fuel n acc = digChar d :: rest ∧ d < 10 := by
  induction fuel with
  | zero => intro n acc h1 h2; omega
  | succ fuel ih =>
    intro n acc h1 h2
    have hn : n ≠ 0 := Nat.pos_iff_ne_zero.mp h1
    have hstep : natToCharsAux (fuel + 1) n acc =
        natToCharsAux fuel (n / 10) (digChar (n % 10) :: acc) := by
      simp [natToCharsAux, hn]
    rw [hstep]
    by_cases hq : n / 10 = 0
    · rw [hq, natToCharsAux_zero]
      exact ⟨n % 10, acc, rfl, Nat.mod_lt _ (by omega)⟩
    · have hdivle : n / 10 ≤ fuel := by
        have hlt : n / 10 < n := Nat.div_lt_self h1 (by omega)
        omega
      exact ih (n / 10) (digChar (n % 10) :: acc) (Nat.pos_of_ne_zero hq) hdivle

theorem goAtoi_natItoaChars (i : Nat) : goAtoi (natItoaChars i) = .ok (i : Int) := by
  by_cases h0 : i = 0
  · subst h0
    rfl
  · obtain ⟨d, rest, hch, hd⟩ := natToCharsAux_head i i [] (Nat.pos_of_ne_zero h0) le_rfl
    have hni : natItoaChars i = digChar d :: rest := by
      rw [natItoaChars, if_neg h0, hch]
    rw [hni]
    have hia : atoiDigits (digChar d :: rest) 0 = some i := by
      rw [← hch, atoiDigits_natToCharsAux i i [] le_rfl]
      rfl
    simp only [goAtoi, if_neg (digChar_ne_minus d hd), if_neg (digChar_ne_plus d hd)]
    have hne : atoiDigitsNE (digChar d :: rest) = atoiDigits (digChar d :: rest) 0 := rfl
    rw [hne, hia]

theorem isPrefixOf_append_self {α : Type} [BEq α] [LawfulBEq α] (l t : List α) :
    l.isPrefixOf (l ++ t) = true := by
  induction l with
  | nil => simp [List.isPrefixOf]
  | cons a as ih => simp [List.isPrefixOf, ih]

theorem parseBatchIndex_roundtrip (i : Nat) :
    parseBatchIndex (makeBatchCheckpointID i) = .ok (i : Int) := by
  unfold parseBatchIndex makeBatchCheckpointID
  have hdata : (String.mk (batchIDChars ++ natItoaChars i)).data =
      batchIDChars ++ natItoaChars i := rfl
  rw [hdata]
  rw [if_pos (isPrefixOf_append_self batchIDChars (natItoaChars i))]
  have hdrop : (batchIDChars ++ natItoaChars i).drop 6 = natItoaChars i :=
    List.drop_left' (by rfl)
  rw [hdrop]
  exact goAtoi_natItoaChars i

/-! Supporting lemmas about `invoke` components. -/

theorem initialOutputs_length {I O : Type} (m : Model I O) (w h : Bool)
    (p : Option NodeInterruptState) (effLen : Nat) :
    (initialOutputs m w h p effLen).length = effLen := by
  unfold initialOutputs
  cases w <;> cases h <;> cases p <;>
    simp [restoreCompleted_length]

theorem runResults_map_fst {I O : Type} (m : Model I O) (eff : List I) (arrival : List Nat) :
    (runResults m eff arrival).map Prod.fst = arrival := by
  unfold runResults
  rw [List.map_map]
  exact List.map_id'' (fun _ => rfl) arrival

/-! Concrete models used by the witnesses and counterexamples. -/

def e0 : GoErr := GoErr.base ordinaryMsg false

def eInt : GoErr := GoErr.base interruptMsg true

def mId : Model Nat Nat :=
  { compileErr := none, runner := fun _ x => (x, none),
    embI := natEmbed, embO := natEmbed, defaultI := 0, defaultO := 0 }

def mCompileFail : Model Nat Nat :=
  { compileErr := some e0, runner := fun _ x => (x, none),
    embI := natEmbed, embO := natEmbed, defaultI := 0, defaultO := 0 }

/-! Claim C9. -/

/-- C9: checkpoint-key round trip.  `parseBatchIndex` inverts
`makeBatchCheckpointID` on every non-negative index; after a successful
`Set` under the canonical checkpoint ID, `Get` with the same ID returns
the stored bytes with `found = true` and no error, while `Get` for an
index never set returns `found = false` with no error. -/
theorem checkpoint_key_roundtrip (i : Nat) (b : GoBytes) (st : List (Int × GoBytes))
    (hmiss : mapLookup st (i : Int) = none) :
    parseBatchIndex (makeBatchCheckpointID i) = .ok (i : Int)
    ∧ storeSet st (makeBatchCheckpointID i) b = .ok (mapInsert st (i : Int) b)
    ∧ storeGet (mapInsert st (i : Int) b) (makeBatchCheckpointID i) = .ok (some b, true)
    ∧ storeGet st (makeBatchCheckpointID i) = .ok (none, false) := by
  have hp := parseBatchIndex_roundtrip i
  refine ⟨hp, ?_, ?_, ?_⟩
  · unfold storeSet
    rw [hp]
  · unfold storeGet
    rw [hp]
    have hl : mapLookup (mapInsert st (i : Int) b) (i : Int) = some b := by
      rw [mapLookup_insert]
      simp
    show Except.ok (mapLookup (mapInsert st (i : Int) b) (i : Int),
        (mapLookup (mapInsert st (i : Int) b) (i : Int)).isSome) = _
    rw [hl]
    rfl
  · unfold storeGet
    rw [hp]
    show Except.ok (mapLookup st (i : Int), (mapLookup st (i : Int)).isSome) = _
    rw [hmiss]
    rfl

/-- Witness for C9 at index 12 over the fresh store. -/
theorem checkpoint_key_roundtrip_witness :
    mapLookup newBatchBridgeStoreData ((12 : Nat) : Int) = none
    ∧ parseBatchIndex (makeBatchCheckpointID 12) = .ok ((12 : Nat) : Int)
    ∧ storeSet newBatchBridgeStoreData (makeBatchCheckpointID 12) [7, 8] =
        .ok (mapInsert newBatchBridgeStoreData ((12 : Nat) : Int) [7, 8])
    ∧ storeGet (mapInsert newBatchBridgeStoreData ((12 : Nat) : Int) [7, 8])
        (makeBatchCheckpointID 12) = .ok (some [7, 8], true)
    ∧ storeGet newBatchBridgeStoreData (makeBatchCheckpointID 12) = .ok (none, false) := by
  have h := checkpoint_key_roundtrip 12 [7, 8] newBatchBridgeStoreData rfl
  exact ⟨rfl, h.1, h.2.1, h.2.2.1, h.2.2.2⟩

/-! Claim C10. -/

/-- C10: out-of-range restoration is ignored.  Restoring completed
results never changes the allocated length, is insensitive to entries
whose index falls outside the output slice, never produces a slot beyond
the allocated length, and on resume the allocation length is exactly the
state's `TotalCount`. -/
theorem out_of_range_restoration_ignored {I O : Type} (m : Model I O)
    (dec : GoAny → Option O) (entries : List (Nat × GoAny)) (outs : List O)
    (st : NodeInterruptState) (inputs : List I) :
    (restoreCompleted dec entries outs).length = outs.length
    ∧ restoreCompleted dec entries outs =
        restoreCompleted dec (entries.filter (fun p => p.1 < outs.length)) outs
    ∧ (∀ k, outs.length ≤ k → (restoreCompleted dec entries outs)[k]? = none)
    ∧ (computeEffectiveInputs m true true (some st) inputs).length = st.TotalCount := by
  refine ⟨restoreCompleted_length dec entries outs, restoreCompleted_filter dec entries outs,
    ?_, ?_⟩
  · intro k hk
    apply List.getElem?_eq_none
    rw [restoreCompleted_length]
    exact hk
  · exact restoreInputs_length m.embI.dec m.defaultI st.OriginalInputs st.TotalCount

/-- Witness for C10: an entry at index 5 is ignored on a two-slot
output slice. -/
theorem out_of_range_restoration_witness :
    (restoreCompleted natEmbed.dec [(5, GoAny.nat 9)] [0, 0]).length = 2
    ∧ restoreCompleted natEmbed.dec [(5, GoAny.nat 9)] [0, 0] =
        restoreCompleted natEmbed.dec
          ([(5, GoAny.nat 9)].filter (fun p => p.1 < ([0, 0] : List Nat).length)) [0, 0]
    ∧ (∀ k, ([0, 0] : List Nat).length ≤ k →
        (restoreCompleted natEmbed.dec [(5, GoAny.nat 9)] [0, 0])[k]? = none)
    ∧ (computeEffectiveInputs mId true true
        (some { OriginalInputs := [], CompletedResults := [], InterruptedIndices := [],
                TotalCount := 3 }) []).length = 3 := by
  have h := out_of_range_restoration_ignored mId natEmbed.dec [(5, GoAny.nat 9)]
    ([0, 0] : List Nat)
    { OriginalInputs := [], CompletedResults := [], InterruptedIndices := [], TotalCount := 3 }
    ([] : List Nat)
  exact h

/-! Claim C8. -/

/-- C8: dispatch-error abort.  When compiling the shared inner task
fails, `invoke` returns the wrapped compile error and no sub-task runs:
the result does not depend on the runner at all. -/
theorem dispatch_error_abort {I O : Type} (m : Model I O) (e : GoErr)
    (w h : Bool) (p : Option NodeInterruptState) (inputs : List I) (arrival : List Nat)
    (hc : m.compileErr = some e) :
    invoke m w h p inputs arrival = .error (GoErr.wrapped compileFailMsg e)
    ∧ ∀ r2 : Nat → I → O × Option GoErr,
        invoke { m with runner := r2 } w h p inputs arrival =
          .error (GoErr.wrapped compileFailMsg e) := by
  constructor
  · simp only [invoke, hc]
  · intro r2
    simp only [invoke]
    rw [show ({ m with runner := r2 } : Model I O).compileErr = some e from hc]

/-- Witness for C8 on a model whose inner task fails to compile. -/
theorem dispatch_error_abort_witness :
    mCompileFail.compileErr = some e0
    ∧ invoke mCompileFail false false none [1, 2] [0, 1] =
        .error (GoErr.wrapped compileFailMsg e0) :=
  ⟨rfl, (dispatch_error_abort mCompileFail e0 false false none [1, 2] [0, 1] rfl).1⟩

/-! Claim C7. -/

/-- C7 counterexample: with zero input items but an inner task that
fails to compile, `Invoke` returns an error, not the empty output
collection with a nil error, so the unqualified claim fails. -/
theorem empty_batch_compile_error_counterexample :
    invoke mCompileFail false false none ([] : List Nat) [] =
      .error (GoErr.wrapped compileFailMsg e0) := rfl

/-- C7 (amended): provided compiling the shared inner task succeeds, an
invocation whose set of indices to process is empty returns the restored
output collection with no error and independently of the runner; in
particular a first run with zero items returns the empty output
sequence. -/
theorem empty_to_process_returns_restored {I O : Type} (m : Model I O)
    (w h : Bool) (p : Option NodeInterruptState) (inputs : List I) (arrival : List Nat)
    (hc : m.compileErr = none)
    (hempty : computeIndicesToProcess w h p inputs = ([] : List Nat)) :
    invoke m w h p inputs arrival =
      .ok (initialOutputs m w h p (computeEffectiveInputs m w h p inputs).length)
    ∧ invoke m false false none ([] : List I) ([] : List Nat) = .ok ([] : List O)
    ∧ ∀ r2 : Nat → I → O × Option GoErr,
        invoke { m with runner := r2 } w h p inputs arrival =
          invoke m w h p inputs arrival := by
  refine ⟨?_, ?_, ?_⟩
  · simp only [invoke, hc, hempty]
    rfl
  · simp only [invoke, hc]
    rfl
  · intro r2
    simp only [invoke, hempty, hc]
    rfl

/-- Witness for C7 (amended): a successfully compiling model with zero
items. -/
theorem empty_to_process_witness :
    mId.compileErr = none
    ∧ computeIndicesToProcess false false none ([] : List Nat) = ([] : List Nat)
    ∧ invoke mId false false none ([] : List Nat) [] = .ok ([] : List Nat) := by
  have h := empty_to_process_returns_restored mId false false none [] [] rfl rfl
  exact ⟨rfl, rfl, h.2.1⟩

/-! Claim C1. -/

/-- C1: all-success order preservation.  On a first run with a
successfully compiling task, if every sub-task invocation returns an
output with no error, then for every arrival order of the per-index
results `Invoke` returns a nil error and exactly `N` outputs whose
`i`-th element is the inner task's output for input `i`. -/
theorem all_success_order_preservation {I O : Type} (m : Model I O) (inputs : List I)
    (arrival : List Nat) (hc : m.compileErr = none)
    (hperm : arrival.Perm (List.range inputs.length))
    (hsucc : ∀ i, i < inputs.length → (m.runner i (inputs.getD i m.defaultI)).2 = none) :
    invoke m false false none inputs arrival =
      .ok ((List.range inputs.length).map (fun i => (m.runner i (inputs.getD i m.defaultI)).1)) := by
  simp only [invoke, hc]
  by_cases hN : inputs.length = 0
  · have hnil : inputs = [] := List.eq_nil_of_length_eq_zero hN
    subst hnil
    rfl
  · have hnodup : arrival.Nodup := hperm.symm.nodup (List.nodup_range _)
    have heff : computeEffectiveInputs m false false none inputs = inputs := rfl
    rw [heff]
    have hne : (computeIndicesToProcess false false none inputs).isEmpty = false := by
      show (List.range inputs.length).isEmpty = false
      cases hr : List.range inputs.length with
      | nil => exact absurd (List.range_eq_nil.mp hr) hN
      | cons a l => rfl
    simp only [hne, Bool.false_eq_true, if_false]
    have hsuccR : ∀ r ∈ runResults m inputs arrival, r.2.2 = none := by
      intro r hr
      unfold runResults at hr
      rcases List.mem_map.mp hr with ⟨idx, hidx, heq⟩
      subst heq
      have hmem : idx ∈ List.range inputs.length := hperm.subset hidx
      exact hsucc idx (List.mem_range.mp hmem)
    rw [collect_all_success m.embO.enc _ _ hsuccR]
    show Except.ok (List.foldl (fun os r => os.set r.1 r.2.1)
        (initialOutputs m false false none inputs.length) (runResults m inputs arrival)) =
      Except.ok ((List.range inputs.length).map
        (fun i => (m.runner i (inputs.getD i m.defaultI)).1))
    congr 1
    apply List.ext_getElem?
    intro k
    by_cases hk : k < inputs.length
    · have hkarr : k ∈ arrival := hperm.mem_iff.mpr (List.mem_range.mpr hk)
      have hrmem : ((k, m.runner k (inputs.getD k m.defaultI)) : Nat × O × Option GoErr) ∈
          runResults m inputs arrival := by
        unfold runResults
        exact List.mem_map_of_mem _ hkarr
      have hnd : ((runResults m inputs arrival).map Prod.fst).Nodup := by
        rw [runResults_map_fst]
        exact hnodup
      have hlen : ((k, m.runner k (inputs.getD k m.defaultI)) : Nat × O × Option GoErr).1 <
          (initialOutputs m false false none inputs.length).length := by
        rw [initialOutputs_length]
        exact hk
      have hL := foldlSet_getElem?_mem (runResults m inputs arrival)
        (initialOutputs m false false none inputs.length) _ hrmem hnd hlen
      rw [List.getElem?_map, List.getElem?_range hk]
      simpa using hL
    · have h1 : (List.foldl (fun os r => os.set r.1 r.2.1)
          (initialOutputs m false false none inputs.length) (runResults m inputs arrival))[k]? =
          none := by
        apply List.getElem?_eq_none
        rw [foldlSet_length, initialOutputs_length]
        omega
      have h2 : ((List.range inputs.length).map
          (fun i => (m.runner i (inputs.getD i m.defaultI)).1))[k]? = none := by
        apply List.getElem?_eq_none
        simp only [List.length_map, List.length_range]
        omega
      rw [h1, h2]

def mC1 : Model Nat Nat :=
  { compileErr := none, runner := fun i x => (x + i, none),
    embI := natEmbed, embO := natEmbed, defaultI := 0, defaultO := 0 }

/-- Witness for C1: three items, results arriving in the order 2, 0, 1,
still produce the in-order output sequence. -/
theorem all_success_order_witness :
    ([2, 0, 1] : List Nat).Perm (List.range ([5, 6, 7] : List Nat).length)
    ∧ invoke mC1 false false none [5, 6, 7] [2, 0, 1] = .ok [5, 7, 9] := by
  constructor
  · decide
  · have h := all_success_order_preservation mC1 [5, 6, 7] [2, 0, 1] rfl (by decide)
      (fun _ _ => rfl)
    exact h.trans rfl

/-! Claim C2. -/

/-- C2: fail-fast on ordinary failure.  If the first ordinary
(non-interrupt) failure in arrival order is error `e` at index `i`,
then `Invoke` returns nil outputs together with exactly that error
wrapped with its originating index; every other collected outcome is
absent from the result. -/
theorem fail_fast_first_ordinary {I O : Type} (m : Model I O) (w h : Bool)
    (p : Option NodeInterruptState) (inputs : List I) (arrival : List Nat)
    (i : Nat) (e : GoErr) (hc : m.compileErr = none)
    (hperm : arrival.Perm (computeIndicesToProcess w h p inputs))
    (hfirst : specFirstOrdinaryFailure
        (runResults m (computeEffectiveInputs m w h p inputs) arrival) = some (i, e)) :
    invoke m w h p inputs arrival = .error (GoErr.taskFailed i e) := by
  simp only [invoke, hc]
  have harr : arrival ≠ [] := by
    intro hnil
    rw [hnil] at hfirst
    simp [runResults, specFirstOrdinaryFailure] at hfirst
  have hne : (computeIndicesToProcess w h p inputs).isEmpty = false := by
    cases hidx : computeIndicesToProcess w h p inputs with
    | nil =>
      exfalso
      apply harr
      have hpn : arrival.Perm ([] : List Nat) := by
        rw [← hidx]
        exact hperm
      exact hpn.eq_nil
    | cons a l => rfl
  simp only [hne, Bool.false_eq_true, if_false]
  have hacc := collect_normalErr_eq m.embO.enc
    (runResults m (computeEffectiveInputs m w h p inputs) arrival)
    { normalErr := none, interruptErrs := [], interruptedIndices := [],
      completedResults := [],
      outputs := initialOutputs m w h p (computeEffectiveInputs m w h p inputs).length }
    rfl
  rw [hfirst] at hacc
  simp only [Option.map_some'] at hacc
  rw [hacc]

def mC2 : Model Nat Nat :=
  { compileErr := none,
    runner := fun i x => if i = 0 then (x, none) else if i = 1 then (0, some e0) else (0, some eInt),
    embI := natEmbed, embO := natEmbed, defaultI := 0, defaultO := 0 }

/-- Witness for C2: index 2 suspends, index 1 fails, index 0 succeeds;
results arrive as 2, 1, 0, and the single reported error is index 1's
failure. -/
theorem fail_fast_witness :
    ([2, 1, 0] : List Nat).Perm
      (computeIndicesToProcess false false none ([4, 5, 6] : List Nat))
    ∧ specFirstOrdinaryFailure
        (runResults mC2 (computeEffectiveInputs mC2 false false none [4, 5, 6]) [2, 1, 0]) =
        some (1, e0)
    ∧ invoke mC2 false false none [4, 5, 6] [2, 1, 0] = .error (GoErr.taskFailed 1 e0) := by
  refine ⟨by decide, rfl, ?_⟩
  exact fail_fast_first_ordinary mC2 false false none [4, 5, 6] [2, 1, 0] 1 e0 rfl
    (by decide) rfl

/-! Claim C6. -/

def stBad : NodeInterruptState :=
  { OriginalInputs := [GoAny.boolV true], CompletedResults := [],
    InterruptedIndices := [0], TotalCount := 1 }

/-- C6 counterexample: a resumed invocation whose stored input fails the
type assertion to `I` does not report any failure — it returns a nil
error with outputs computed from the zero value, contradicting the
claim that such mismatches surface as ordinary failures. -/
theorem resume_mismatch_counterexample :
    invoke mId true true (some stBad) ([] : List Nat) [0] = .ok [0] := rfl

/-- C6 (amended): resume-time type mismatches are silently skipped, not
reported.  An `OriginalInputs` entry failing the assertion to `I` leaves
the zero value of `I` in the effective inputs, and the invocation
proceeds normally: with a successful compile and error-free runs it
returns a nil error. -/
theorem resume_mismatch_silent {I O : Type} (m : Model I O) (st : NodeInterruptState)
    (inputs : List I) (arrival : List Nat) (k : Nat) (v : GoAny)
    (hget : st.OriginalInputs[k]? = some v) (hdec : m.embI.dec v = none)
    (hk : k < st.TotalCount) (hc : m.compileErr = none)
    (hsucc : ∀ r ∈ runResults m (computeEffectiveInputs m true true (some st) inputs) arrival,
        r.2.2 = none) :
    (computeEffectiveInputs m true true (some st) inputs)[k]? = some m.defaultI
    ∧ ∃ outs, invoke m true true (some st) inputs arrival = .ok outs := by
  constructor
  · show (restoreInputs m.embI.dec m.defaultI st.OriginalInputs st.TotalCount)[k]? =
      some m.defaultI
    exact restoreInputs_getElem?_mismatch m.embI.dec m.defaultI st.OriginalInputs
      st.TotalCount k v hget hdec hk
  · simp only [invoke, hc]
    by_cases hemp : (computeIndicesToProcess (I := I) true true (some st) inputs).isEmpty = true
    · simp only [hemp, if_true]
      exact ⟨_, rfl⟩
    · have hne : (computeIndicesToProcess (I := I) true true (some st) inputs).isEmpty = false := by
        cases hx : (computeIndicesToProcess (I := I) true true (some st) inputs).isEmpty with
        | true => exact absurd hx hemp
        | false => rfl
      simp only [hne, Bool.false_eq_true, if_false]
      rw [collect_all_success m.embO.enc _ _ hsucc]
      exact ⟨_, rfl⟩

/-- Witness for C6 (amended): the mismatched entry of `stBad` yields the
zero value and a nil-error result. -/
theorem resume_mismatch_witness :
    stBad.OriginalInputs[0]? = some (GoAny.boolV true)
    ∧ natEmbed.dec (GoAny.boolV true) = none
    ∧ (computeEffectiveInputs mId true true (some stBad) ([] : List Nat))[0]? = some 0
    ∧ ∃ outs, invoke mId true true (some stBad) ([] : List Nat) [0] = .ok outs := by
  have h := resume_mismatch_silent mId stBad [] [0] 0 (GoAny.boolV true) rfl rfl
    (by decide) rfl
    (fun r hr => by
      simp [runResults] at hr
      subst hr
      rfl)
  exact ⟨rfl, rfl, h.1, h.2⟩

/-! Claim C3. -/

def mC3 : Model Nat Nat :=
  { compileErr := none,
    runner := fun i x => if i = 0 then (x + 4, none) else (0, some eInt),
    embI := natEmbed, embO := natEmbed, defaultI := 0, defaultO := 0 }

def mC3resolved : Model Nat Nat :=
  { compileErr := none, runner := fun _ x => (x + 4, none),
    embI := natEmbed, embO := natEmbed, defaultI := 0, defaultO := 0 }

def stC3 : NodeInterruptState :=
  { OriginalInputs := [GoAny.nat 3, GoAny.nat 4], CompletedResults := [(0, GoAny.nat 7)],
    InterruptedIndices := [1], TotalCount := 2 }

def stC3resumed : NodeInterruptState :=
  { OriginalInputs := [GoAny.nat 3, GoAny.nat 4], CompletedResults := [],
    InterruptedIndices := [1], TotalCount := 2 }

/-- C3 (code bug): the suspension state built by a resumed invocation
drops outputs completed in the prior run.  First run: index 0 succeeds
with output 7, index 1 suspends, and the state records `{0 ↦ 7}`.
Resuming with that state while index 1 suspends again produces a fresh
state whose `CompletedResults` is empty — index 0's output is gone — so
a later resume that finishes index 1 returns the zero value at slot 0
(`[0, 8]`) where resuming from the first state returns `[7, 8]`. -/
theorem suspension_state_drops_prior_completions :
    invoke mC3 false false none [3, 4] [0, 1] = .error (GoErr.composite [eInt] stC3)
    ∧ mapLookup stC3.CompletedResults 0 = some (GoAny.nat 7)
    ∧ invoke mC3 true true (some stC3) ([] : List Nat) [1] =
        .error (GoErr.composite [eInt] stC3resumed)
    ∧ stC3resumed.CompletedResults = []
    ∧ invoke mC3resolved true true (some stC3resumed) ([] : List Nat) [1] = .ok [0, 8]
    ∧ invoke mC3resolved true true (some stC3) ([] : List Nat) [1] = .ok [7, 8] :=
  ⟨rfl, rfl, rfl, rfl, rfl, rfl⟩

/-! Claim C4. -/

/-- C4: resume re-execution exactness.  For any state produced by an
invocation that suspended (under distinct arrival indices), a resumed
invocation dispatches exactly the state's `InterruptedIndices`; no index
present in `CompletedResults` is among them, and each stored completed
output decodes successfully and is pre-populated into its output slot;
the allocation length equals the state's `TotalCount`. -/
theorem resume_reexecution_exactness {I O : Type} (m : Model I O) (w h : Bool)
    (p : Option NodeInterruptState) (inputs1 : List I) (arrival1 : List Nat)
    (hnd : arrival1.Nodup) (sigs : List GoErr) (st : NodeInterruptState)
    (hrun : invoke m w h p inputs1 arrival1 = .error (GoErr.composite sigs st))
    (inputs2 : List I) :
    computeIndicesToProcess (I := I) true true (some st) inputs2 = st.InterruptedIndices
    ∧ (∀ k v, mapLookup st.CompletedResults k = some v → k ∉ st.InterruptedIndices)
    ∧ (∀ k v, mapLookup st.CompletedResults k = some v → k < st.TotalCount →
        ∃ o, m.embO.dec v = some o ∧
          (initialOutputs m true true (some st) st.TotalCount)[k]? = some o)
    ∧ (computeEffectiveInputs m true true (some st) inputs2).length = st.TotalCount := by
  simp only [invoke] at hrun
  cases hcomp : m.compileErr with
  | some e =>
    rw [hcomp] at hrun
    simp at hrun
  | none =>
    rw [hcomp] at hrun
    cases hemp : (computeIndicesToProcess w h p inputs1).isEmpty with
    | true =>
      rw [hemp] at hrun
      simp at hrun
    | false =>
      rw [hemp] at hrun
      simp only [Bool.false_eq_true, if_false] at hrun
      rcases collect_normalErr_shape m.embO.enc
          (runResults m (computeEffectiveInputs m w h p inputs1) arrival1)
          { normalErr := none, interruptErrs := [], interruptedIndices := [],
            completedResults := [],
            outputs := initialOutputs m w h p
              (computeEffectiveInputs m w h p inputs1).length }
          rfl with hsh | ⟨i2, e2, hsh⟩
      · rw [hsh] at hrun
        cases hie : (List.foldl (collectStep m.embO.enc)
            { normalErr := none, interruptErrs := [], interruptedIndices := [],
              completedResults := [],
              outputs := initialOutputs m w h p
                (computeEffectiveInputs m w h p inputs1).length }
            (runResults m (computeEffectiveInputs m w h p inputs1) arrival1)).interruptErrs.isEmpty with
        | true =>
          rw [hie] at hrun
          simp at hrun
        | false =>
          rw [hie] at hrun
          simp only [Bool.false_eq_true, if_false] at hrun
          injection hrun with hrun2
          injection hrun2 with hsigs hstate
          subst hstate
          refine ⟨rfl, ?_, ?_, ?_⟩
          · intro k v hkv hkmem
            rcases collect_completed_lookup m.embO.enc _ _ k v hkv with hl |
              ⟨r, hr, hrk, hrsucc, hrv⟩
            · exact Option.noConfusion hl
            · rcases collect_interrupted_mem m.embO.enc _ _ k hkmem with him |
                ⟨r2, hr2, hrk2, e2, he2, hie2⟩
              · exact List.not_mem_nil k him
              · have hndmap : ((runResults m (computeEffectiveInputs m w h p inputs1)
                    arrival1).map Prod.fst).Nodup := by
                  rw [runResults_map_fst]
                  exact hnd
                have hr12 : r = r2 :=
                  List.inj_on_of_nodup_map hndmap hr hr2 (by rw [hrk, hrk2])
                rw [hr12, he2] at hrsucc
                cases hrsucc
          · intro k v hkv hkT
            rcases collect_completed_lookup m.embO.enc _ _ k v hkv with hl |
              ⟨r, hr, hrk, hrsucc, hrv⟩
            · exact Option.noConfusion hl
            · refine ⟨r.2.1, ?_, ?_⟩
              · rw [hrv, m.embO.dec_enc]
              · show (restoreCompleted m.embO.dec
                    (List.foldl (collectStep m.embO.enc)
                      { normalErr := none, interruptErrs := [], interruptedIndices := [],
                        completedResults := [],
                        outputs := initialOutputs m w h p
                          (computeEffectiveInputs m w h p inputs1).length }
                      (runResults m (computeEffectiveInputs m w h p inputs1)
                        arrival1)).completedResults
                    (List.replicate
                      (computeEffectiveInputs m w h p inputs1).length m.defaultO))[k]? =
                  some r.2.1
                apply restoreCompleted_getElem?_mem m.embO.dec _ _ k v r.2.1
                · exact collect_completed_keys_nodup m.embO.enc _ _ List.nodup_nil
                · exact mapLookup_mem _ _ _ hkv
                · rw [hrv, m.embO.dec_enc]
                · rw [List.length_replicate]
                  exact hkT
          · show (restoreInputs m.embI.dec m.defaultI
                (List.map m.embI.enc (computeEffectiveInputs m w h p inputs1))
                (computeEffectiveInputs m w h p inputs1).length).length =
              (computeEffectiveInputs m w h p inputs1).length
            exact restoreInputs_length _ _ _ _
      · rw [hsh] at hrun
        simp at hrun

/-- Witness for C4 on the concrete suspension of `mC3`. -/
theorem resume_reexecution_witness :
    ([0, 1] : List Nat).Nodup
    ∧ computeIndicesToProcess (I := Nat) true true (some stC3) ([] : List Nat) =
        stC3.InterruptedIndices := by
  refine ⟨by decide, ?_⟩
  have h := resume_reexecution_exactness mC3 false false none [3, 4] [0, 1] (by decide)
    [eInt] stC3 rfl ([] : List Nat)
  exact h.1

/-! Claim C5. -/

theorem concInv (B n : Nat) (s : ConcState) (hs : ReachConc B (concInit n) s) :
    (s.firstRunning = true → s.waitingSem = 0 ∧ s.runningSem = 0) ∧ s.runningSem ≤ B := by
  induction hs with
  | refl => exact ⟨fun _ => ⟨rfl, rfl⟩, Nat.zero_le B⟩
  | @tail s t hr hstep ih =>
    cases hstep with
    | finishFirst h =>
      refine ⟨fun hf => ?_, ?_⟩
      · exact absurd hf (by simp)
      · exact ih.2
    | spawn h1 h2 =>
      refine ⟨fun hf => ?_, ?_⟩
      · have hfr : s.firstRunning = true := hf
        rw [h1] at hfr
        cases hfr
      · exact ih.2
    | acquire h1 h2 =>
      refine ⟨fun hf => ?_, ?_⟩
      · have hfr : s.firstRunning = true := hf
        have hw := (ih.1 hfr).1
        exact absurd h1 (by omega)
      · show s.runningSem + 1 ≤ B
        omega
    | finishTask h =>
      refine ⟨fun hf => ?_, ?_⟩
      · have hfr : s.firstRunning = true := hf
        have hr0 := (ih.1 hfr).2
        exact absurd h (by omega)
      · show s.runningSem - 1 ≤ B
        have := ih.2
        omega

theorem seqInv (l0 : List Nat) (t : SeqState) (ht : ReachSeq (seqInit l0) t) :
    t.doneList ++ t.current.toList ++ t.pending = l0 := by
  induction ht with
  | refl => simp [seqInit]
  | @tail s t hr hstep ih =>
    cases hstep with
    | start idx rest hc hp =>
      show s.doneList ++ (some idx).toList ++ rest = l0
      rw [hc, hp] at ih
      rw [← ih]
      simp
    | finish idx hc =>
      show (s.doneList ++ [idx]) ++ (none : Option Nat).toList ++ s.pending = l0
      rw [hc] at ih
      rw [← ih]
      simp

/-- C5: concurrency bound respected.  In the concurrent dispatch
machine of `node.go` lines 203-221 (first item synchronous, later items
gated by a `B`-slot semaphore), every reachable state with `B > 0` has
at most `B` simultaneously executing task invocations; in the
sequential machine of lines 197-202 (`B == 0`) at most one invocation
is live and the items are consumed strictly in order, each finishing
before the next starts. -/
theorem concurrency_bound_respected (B n : Nat) (hB : 0 < B) (s : ConcState)
    (hs : ReachConc B (concInit n) s) (l0 : List Nat) (t : SeqState)
    (ht : ReachSeq (seqInit l0) t) :
    liveConc s ≤ B
    ∧ liveSeq t ≤ 1
    ∧ t.doneList ++ t.current.toList ++ t.pending = l0 := by
  refine ⟨?_, ?_, seqInv l0 t ht⟩
  · have hinv := concInv B n s hs
    unfold liveConc
    cases hf : s.firstRunning with
    | true =>
      rw [(hinv.1 hf).2]
      simpa using hB
    | false =>
      simpa using hinv.2
  · unfold liveSeq
    split <;> omega

def sW1 : ConcState :=
  { firstRunning := false, toSpawn := 2, waitingSem := 0, runningSem := 0, finished := 1 }

def sW2 : ConcState :=
  { firstRunning := false, toSpawn := 1, waitingSem := 1, runningSem := 0, finished := 1 }

def sW3 : ConcState :=
  { firstRunning := false, toSpawn := 1, waitingSem := 0, runningSem := 1, finished := 1 }

/-- Witness for C5: a reachable concurrent state with the first item
finished, one goroutine spawned and holding a semaphore slot, under
bound 2; and the initial sequential state over two items. -/
theorem concurrency_bound_witness :
    (0 : Nat) < 2
    ∧ liveConc sW3 ≤ 2
    ∧ liveSeq (seqInit [4, 9]) ≤ 1
    ∧ (seqInit [4, 9]).doneList ++ (seqInit [4, 9]).current.toList ++ (seqInit [4, 9]).pending =
        [4, 9] := by
  have h1 : ConcStep 2 (concInit 2) sW1 := ConcStep.finishFirst (concInit 2) rfl
  have h2 : ConcStep 2 sW1 sW2 := ConcStep.spawn sW1 rfl (by decide)
  have h3 : ConcStep 2 sW2 sW3 := ConcStep.acquire sW2 (by decide) (by decide)
  have hreach : ReachConc 2 (concInit 2) sW3 :=
    ReachConc.tail (ReachConc.tail (ReachConc.tail ReachConc.refl h1) h2) h3
  have h := concurrency_bound_respected 2 2 (by omega) sW3 hreach [4, 9] (seqInit [4, 9])
    ReachSeq.refl
  exact ⟨by omega, h.1, h.2.1, h.2.2⟩

end EinoBatch
